import Mathlib

/-!
Verification of the bloop transcript view (`Conversation.tsx`) and the
code-annotation decoder (`CodeRenderer.tsx`).

The embedding is shallow: each TypeScript derivation is translated into an
executable Lean function over explicit data.  JavaScript numbers that can be
`NaN` are modelled as `Option Int` (with `none` standing for `NaN`), and
possibly-`undefined` values as a further `Option` layer.
-/

namespace Bloop

/-! ### Transcript data model (`Conversation.tsx`)

`ChatMessage` is the author-discriminated union.  Only the Server fields read
by the projections under verification are carried (`isLoading`, `queryId`,
`isFromHistory`); the remaining Server payload fields (`loadingSteps`,
`results`, `error`, `responseTimestamp`, `explainedFile`) are passed through
verbatim by the component and play no role in any claim. -/

inductive ChatMessage
  | user (text : String)
  | server (text : String) (isLoading : Bool) (queryId : String)
      (isFromHistory : Bool)
deriving DecidableEq

/-- The nil sentinel UUID used when a User turn has no owning Server turn. -/
def nilQueryId : String := "00000000-0000-0000-0000-000000000000"

/-- The `queryId` prop computed for the turn at index `i`:
`m.author === Server ? m.queryId : (conversation[i-1] as ChatMessageServer)?.queryId || nil`.
For a User turn the code reads `queryId` off the preceding element (undefined
when `i = 0` or when the preceding turn is a User turn, which lacks the
field), and the JavaScript `||` replaces any falsy value — `undefined` or the
empty string — by the sentinel. -/
def projQueryId (conversation : List ChatMessage) (i : Nat) : String :=
  match conversation[i]? with
  | some (ChatMessage.server _ _ queryId _) => queryId
  | some (ChatMessage.user _) =>
      let prev : Option String :=
        if i = 0 then none
        else
          match conversation[i - 1]? with
          | some (ChatMessage.server _ _ queryId _) => some queryId
          | _ => none
      match prev with
      | some q => if q = "" then nilQueryId else q
      | none => nilQueryId
  | none => nilQueryId

/-- The `showInlineFeedback` prop for the turn at index `i`:
`m.author === Server && !m.isLoading && !isLoading && i === conversation.length - 1 && !m.isFromHistory`. -/
def projShowInlineFeedback (conversation : List ChatMessage) (isLoading : Bool)
    (i : Nat) : Bool :=
  match conversation[i]? with
  | some (ChatMessage.server _ mLoading _ mFromHistory) =>
      !mLoading && !isLoading && (i == conversation.length - 1) && !mFromHistory
  | _ => false

/-- Data-model invariant from the spec: every Server turn carries a non-null
query identifier (a UUID, hence a non-empty string). -/
def wfConversation (conversation : List ChatMessage) : Bool :=
  conversation.all fun m =>
    match m with
    | ChatMessage.server _ _ q _ => q != ""
    | ChatMessage.user _ => true

/-! ### Scroll-follow state (`handleScroll`)

`handleScroll` reads the container metrics and sets
`userScrolledUp = scrollTop < scrollHeight - clientHeight`; re-renders leave
the React state untouched.  A trace is a list of events, each either a native
scroll (with the metrics observed at that moment) or a render. -/

inductive ScrollEvent
  | scroll (scrollTop scrollHeight clientHeight : Int)
  | render
deriving DecidableEq

/-- The body of `handleScroll`: the flag recomputed from the metrics. -/
def handleScroll (scrollTop scrollHeight clientHeight : Int) : Bool :=
  decide (scrollTop < scrollHeight - clientHeight)

/-- One event acting on the `userScrolledUp` state. -/
def stepScroll (userScrolledUp : Bool) : ScrollEvent → Bool
  | ScrollEvent.scroll t h c => handleScroll t h c
  | ScrollEvent.render => userScrolledUp

/-- The `userScrolledUp` state after a trace of events. -/
def runScroll (s : Bool) (events : List ScrollEvent) : Bool :=
  events.foldl stepScroll s

theorem runScroll_stays_true (suffix : List ScrollEvent)
    (hall : ∀ t' h' c', ScrollEvent.scroll t' h' c' ∈ suffix → t' < h' - c') :
    runScroll true suffix = true := by
  induction suffix with
  | nil => rfl
  | cons e es ih =>
      cases e with
      | render =>
          exact ih fun t' h' c' hm => hall t' h' c' (List.mem_cons_of_mem _ hm)
      | scroll t h c =>
          have hs : stepScroll true (ScrollEvent.scroll t h c) = true := by
            simp [stepScroll, handleScroll]
            exact hall t h c (List.mem_cons_self _ _)
          show runScroll (stepScroll true (ScrollEvent.scroll t h c)) es = true
          rw [hs]
          exact ih fun t' h' c' hm => hall t' h' c' (List.mem_cons_of_mem _ hm)

/-- C1: for a User turn at `i` whose predecessor is a Server turn, the
projected `effectiveQueryId` is that predecessor's query identifier; at `i = 0`
or after a User predecessor it is the nil sentinel UUID; for a Server turn it
is the turn's own query identifier.  The well-formedness hypothesis is the
spec's data-model invariant that Server query identifiers are UUIDs (hence
non-empty), which keeps the JavaScript `||` from firing on a Server value. -/
theorem claim_C1 (conversation : List ChatMessage)
    (hwf : wfConversation conversation = true) :
    (∀ i t tp lp q fh, conversation[i]? = some (ChatMessage.user t) →
        i ≠ 0 →
        conversation[i - 1]? = some (ChatMessage.server tp lp q fh) →
        projQueryId conversation i = q) ∧
    (∀ i t, conversation[i]? = some (ChatMessage.user t) →
        (i = 0 ∨ ∃ u, conversation[i - 1]? = some (ChatMessage.user u)) →
        projQueryId conversation i = nilQueryId) ∧
    (∀ i tp lp q fh,
        conversation[i]? = some (ChatMessage.server tp lp q fh) →
        projQueryId conversation i = q) := by
  refine ⟨?_, ?_, ?_⟩
  · intro i t tp lp q fh hi hne hprev
    have hq : q ≠ "" := by
      have hmem : ChatMessage.server tp lp q fh ∈ conversation := by
        rcases List.getElem?_eq_some_iff.mp hprev with ⟨hlt, heq⟩
        exact heq ▸ List.getElem_mem hlt
      have := (List.all_eq_true.mp hwf) _ hmem
      simpa using this
    simp [projQueryId, hi, hprev, hne, hq]
  · intro i t hi hcase
    rcases hcase with h0 | ⟨u, hu⟩
    · subst h0
      simp [projQueryId, hi]
    · by_cases h0 : i = 0
      · subst h0
        simp [projQueryId, hi]
      · simp [projQueryId, hi, h0, hu]
  · intro i tp lp q fh hi
    simp [projQueryId, hi]

theorem claim_C1_witness :
    projQueryId
      [ChatMessage.server "a" false "q1" false, ChatMessage.user "b"] 1 =
      "q1" :=
  (claim_C1 [ChatMessage.server "a" false "q1" false, ChatMessage.user "b"]
      (by decide)).1 1 "b" "a" false "q1" false rfl (by decide) rfl

/-- C4: `showInlineFeedback` is true exactly when the turn at `i` is
Server-authored with its own loading flag false and history flag false, the
transcript-wide loading flag is false, and `i` is the last index. -/
theorem claim_C4 (conversation : List ChatMessage) (isLoading : Bool)
    (i : Nat) :
    projShowInlineFeedback conversation isLoading i = true ↔
      (∃ t q,
          conversation[i]? = some (ChatMessage.server t false q false)) ∧
        isLoading = false ∧ i = conversation.length - 1 := by
  unfold projShowInlineFeedback
  cases hm : conversation[i]? with
  | none => simp
  | some m =>
      cases m with
      | user t => simp
      | server t mL q fh =>
          cases mL <;> cases fh <;> cases isLoading <;>
            simp [Nat.beq_eq_true_eq]

theorem claim_C4_witness :
    projShowInlineFeedback [ChatMessage.server "a" false "q1" false] false 0 =
      true :=
  (claim_C4 [ChatMessage.server "a" false "q1" false] false 0).mpr
    ⟨⟨"a", "q1", rfl⟩, rfl, rfl⟩

/-- C5: once a scroll event observes an offset strictly below
`scrollHeight - clientHeight`, `userScrolledUp` is true and stays true through
renders and further above-the-bottom scrolls, until a scroll event observes an
offset at or past the bottom; a scroll event exactly at the bottom (or past
it) sets the flag to false, so being exactly at the bottom counts as
following. -/
theorem claim_C5 :
    (∀ (s0 : Bool) (pre suffix : List ScrollEvent) (t h c : Int),
        t < h - c →
        (∀ t' h' c', ScrollEvent.scroll t' h' c' ∈ suffix → t' < h' - c') →
        runScroll s0 (pre ++ ScrollEvent.scroll t h c :: suffix) = true) ∧
    (∀ (s0 : Bool) (t h c : Int), h - c ≤ t →
        stepScroll s0 (ScrollEvent.scroll t h c) = false) := by
  constructor
  · intro s0 pre suffix t h c hbelow hall
    unfold runScroll
    rw [List.foldl_append]
    show runScroll (stepScroll (runScroll s0 pre) (ScrollEvent.scroll t h c))
        suffix = true
    have hs : stepScroll (runScroll s0 pre) (ScrollEvent.scroll t h c) =
        true := by
      simp [stepScroll, handleScroll]
      exact hbelow
    rw [hs]
    exact runScroll_stays_true suffix hall
  · intro s0 t h c hge
    simp [stepScroll, handleScroll]
    omega

theorem claim_C5_witness :
    runScroll false
        ([] ++ ScrollEvent.scroll 0 10 5 :: [ScrollEvent.render]) = true ∧
      stepScroll true (ScrollEvent.scroll 5 10 5) = false :=
  ⟨claim_C5.1 false [] [ScrollEvent.render] 0 10 5 (by decide)
      (by
        intro t' h' c' hm
        rcases List.mem_singleton.mp hm with h
        exact ScrollEvent.noConfusion h),
    claim_C5.2 true 5 10 5 (by decide)⟩

/-! ### Annotation decoder (`CodeRenderer.tsx`)

The class string is modelled as a list of characters.  The four extractions
are JavaScript regexes; each is embedded by a scanner that tries the pattern
at every start position from the left (leftmost-match semantics) and, at a
position, matches the literal tag followed by the pattern's greedy tail. -/

/-- Class strings and captures, as character lists. -/
abbrev Str := List Char

/-- JavaScript `\w`: ASCII letters, digits and underscore. -/
def isWordChar (c : Char) : Bool :=
  c.isAlpha || c.isDigit || c = '_'

/-- JavaScript `.` (no `s` flag): any character except a line terminator. -/
def jsDot (c : Char) : Bool :=
  !(c = '\n' || c = '\r' || c = Char.ofNat 0x2028 || c = Char.ofNat 0x2029)

/-- Leftmost-match scan: try the single-position matcher at every suffix,
left to right (`RegExp.exec` semantics for the patterns used here, which
have no anchors). -/
def scanFirst (tryAt : Str → Option Str) : Str → Option Str
  | [] => tryAt []
  | c :: cs =>
      match tryAt (c :: cs) with
      | some r => some r
      | none => scanFirst tryAt cs

/-- Match `<tag>(\w+)` at the start of `s`: the literal tag followed by a
non-empty greedy run of word characters, captured. -/
def tryTagWordAt (tag : Str) (s : Str) : Option Str :=
  if tag.isPrefixOf s then
    let cap := (s.drop tag.length).takeWhile isWordChar
    if cap = [] then none else some cap
  else none

/-- `/lang:(\w+)/.exec(className)` — capture group 1. -/
def matchLangFst (className : Str) : Option Str :=
  scanFirst (tryTagWordAt "lang:".toList) className

/-- `/language-(\w+)/.exec(className)` — capture group 1. -/
def matchLangSnd (className : Str) : Option Str :=
  scanFirst (tryTagWordAt "language-".toList) className

/-- `matchLang`: the first regex, falling back to the second (`||`; the
capture `\w+` is never empty, so truthiness of the match coincides with
success). -/
def matchLang (className : Str) : Option Str :=
  match matchLangFst className with
  | some r => some r
  | none => matchLangSnd className

/-- `matchType`: `/language-type:(\w+)/.exec(className)` — capture group 1. -/
def matchType (className : Str) : Option Str :=
  scanFirst (tryTagWordAt "language-type:".toList) className

/-- Drop characters up to and including the first `','`; `none` when there is
no comma.  Applied to a reversed line this finds the last comma. -/
def dropToComma : Str → Option Str
  | [] => none
  | c :: cs => if c = ',' then some cs else dropToComma cs

/-- Greedy `(.+),` at the start of `rest`: the capture runs to the last comma
of the current line that leaves a non-empty capture. -/
def greedyDotPlusComma (rest : Str) : Option Str :=
  match dropToComma (rest.takeWhile jsDot).reverse with
  | some revCap => if revCap = [] then none else some revCap.reverse
  | none => none

/-- Match `path:(.+),` at the start of `s`. -/
def tryPathAt (s : Str) : Option Str :=
  if "path:".toList.isPrefixOf s then
    greedyDotPlusComma (s.drop "path:".length)
  else none

/-- `matchPath`: `/path:(.+),/.exec(className)` — capture group 1. -/
def matchPath (className : Str) : Option Str :=
  scanFirst tryPathAt className

/-- Match `lines:(.+)` at the start of `s`: greedy capture to the end of the
line, which must be non-empty. -/
def tryLinesAt (s : Str) : Option Str :=
  if "lines:".toList.isPrefixOf s then
    let cap := (s.drop "lines:".length).takeWhile jsDot
    if cap = [] then none else some cap
  else none

/-- `matchLines`: `/lines:(.+)/.exec(className)` — capture group 1. -/
def matchLines (className : Str) : Option Str :=
  scanFirst tryLinesAt className

/-- `String.prototype.split('-')`: pieces between dashes, empty pieces kept. -/
def splitDash : Str → List Str
  | [] => [[]]
  | c :: cs =>
      if c = '-' then [] :: splitDash cs
      else
        match splitDash cs with
        | p :: ps => (c :: p) :: ps
        | [] => [[c]]

/-- A JavaScript number restricted to the decoder's domain: an integer, or
`NaN` (`none`). -/
abbrev JSNum := Option Int

/-- `NaN`. -/
def jsNaN : JSNum := none

/-- Value of a non-empty all-digit string, else `none`. -/
def digitsVal (l : Str) : Option Nat :=
  if l.isEmpty then none
  else if l.all Char.isDigit then
    some (l.foldl (fun a c => a * 10 + (c.toNat - 48)) 0)
  else none

/-- JavaScript whitespace stripped by `Number(...)`. -/
def isJsSpace (c : Char) : Bool :=
  c = ' ' || c = '\t' || c = '\n' || c = '\r' ||
    c = Char.ofNat 0x0B || c = Char.ofNat 0x0C

/-- `Number(s)` on the decoder's domain: surrounding whitespace is ignored,
the empty string is `0`, an optional sign followed by digits is the integer
value, anything else is `NaN`.  (Fractional, exponent and radix-prefixed
literals do not occur in the line-annotation grammar.) -/
def jsNumber (s : Str) : JSNum :=
  let t := ((s.dropWhile isJsSpace).reverse.dropWhile isJsSpace).reverse
  match t with
  | [] => some 0
  | c :: ds =>
      if c = '+' then (digitsVal ds).map Int.ofNat
      else if c = '-' then (digitsVal ds).map fun n => -(n : Int)
      else (digitsVal (c :: ds)).map Int.ofNat

/-- `lines` memo: `matchLines?.[1].split('-').map((l) => Number(l)) || []`. -/
def linesList (className : Str) : List JSNum :=
  match matchLines className with
  | some cap => (splitDash cap).map jsNumber
  | none => []

/-- JavaScript subtraction of 1 from a possibly-`undefined`, possibly-`NaN`
value: `undefined - 1` and `NaN - 1` are both `NaN`. -/
def jsSub1 : Option JSNum → JSNum
  | some (some n) => some (n - 1)
  | _ => jsNaN

/-- `a ?? b`: nullish coalescing on a possibly-`undefined` value (`NaN` is
not nullish). -/
def jsCoalesce (a b : Option JSNum) : Option JSNum :=
  match a with
  | some v => some v
  | none => b

/-- `linesToUse` memo: `[lines[0] - 1, (lines[1] ?? lines[0]) - 1]` — always
a pair; the type annotation admits `undefined` but the computation never
produces it. -/
def linesToUse (className : Str) : JSNum × JSNum :=
  (jsSub1 (linesList className)[0]?,
    jsSub1 (jsCoalesce (linesList className)[1]? (linesList className)[0]?))

/-- Template-literal rendering of a `JSNum` (`NaN` prints as `"NaN"`). -/
def jsNumToString : JSNum → Str
  | none => "NaN".toList
  | some n => (toString n).toList

/-- `handleChipClick`: the argument passed to `updateScrollToIndex`, the
template literal `` `${lines[0] - 1}_${(lines[1] ?? lines[0]) - 1}` ``. -/
def chipClickEmit (className : Str) : Str :=
  jsNumToString (jsSub1 (linesList className)[0]?) ++
    '_' :: jsNumToString
      (jsSub1 (jsCoalesce (linesList className)[1]? (linesList className)[0]?))

/-- A child node of the code element: a plain-text string or any other
rendered node. -/
inductive Child
  | str (s : Str)
  | node
deriving DecidableEq

/-- The rendering strategy selected by `CodeRenderer`, with the decoded data
each branch hands to its leaf component.  `fileChip` records the string its
click handler would pass to `updateScrollToIndex`; `colorSwatch` and
`plainCode` record the pass-through attribute blob and class forwarded to the
underlying `code` element. -/
inductive Strategy
  | fileChip (fileName : Str) (lines : JSNum × JSNum) (clickEmit : Str)
  | codeWithBreadcrumbs (code : Str) (language : Str) (filePath : Str)
      (startLine : Option Int)
  | newCode (code : Str) (language : Str)
  | colorSwatch (color : Str) (attrs : Str) (className : Str)
  | plainCode (attrs : Str) (className : Str)
deriving DecidableEq

/-- `code` memo: the first child when it is a string, with one trailing
newline removed (`replace(/\n$/, '')`); otherwise the empty string. -/
def codeOf (children : List Child) : Str :=
  match children[0]? with
  | some (Child.str s) =>
      match s.reverse with
      | '\n' :: rs => rs.reverse
      | _ => s
  | _ => []

/-- Case-insensitive `(^#[0-9A-F]{6}$)|(^#[0-9A-F]{3}$)`. -/
def isHexColor (s : Str) : Bool :=
  match s with
  | '#' :: rest =>
      (rest.length == 6 || rest.length == 3) &&
        rest.all fun c =>
          c.isDigit || ('A' ≤ c && c ≤ 'F') || ('a' ≤ c && c ≤ 'f')
  | _ => false

/-- `colorPreview` condition: `children[0] && children.length === 1 &&
typeof children[0] === 'string' && hexRegex.test(children[0])` (the empty
string is falsy). -/
def colorCond (children : List Child) : Bool :=
  match children with
  | [Child.str s] => !s.isEmpty && isHexColor s
  | _ => false

/-- Whether `typeof children[0] === 'string'`. -/
def firstChildIsString (children : List Child) : Bool :=
  match children[0]? with
  | some (Child.str _) => true
  | _ => false

/-- The component's dispatch, in source order: branch A when not inline, a
type or language capture is truthy and the first child is a string (then
`Quoted` + `hideCode` → `FileChip`, `Quoted` otherwise → breadcrumbs view,
other captures → `NewCode`); else the color-swatch branch; else plain code.
`startLine` reproduces `lines[0] ? lines[0] - 1 : null`, where `undefined`,
`NaN` and `0` are all falsy. -/
def render (className : Str) (children : List Child) (inline hideCode : Bool)
    (propsJSON : Str) : Strategy :=
  let lines := linesList className
  if !inline &&
      ((matchType className).isSome || (matchLang className).isSome) &&
      firstChildIsString children then
    if matchType className = some "Quoted".toList then
      if hideCode then
        Strategy.fileChip ((matchPath className).getD [])
          (linesToUse className) (chipClickEmit className)
      else
        Strategy.codeWithBreadcrumbs (codeOf children)
          ((matchLang className).getD []) ((matchPath className).getD [])
          (match lines[0]? with
           | some (some n) => if n = 0 then none else some (n - 1)
           | _ => none)
    else Strategy.newCode (codeOf children) ((matchLang className).getD [])
  else if colorCond children then
    Strategy.colorSwatch
      (match children with
       | [Child.str s] => s
       | _ => [])
      propsJSON className
  else Strategy.plainCode propsJSON className

/-! ### General facts about the leftmost-match scanner -/

theorem scanFirst_isSome_iff (f : Str → Option Str) (s : Str) :
    (scanFirst f s).isSome ↔ ∃ i, (f (s.drop i)).isSome := by
  induction s with
  | nil =>
      constructor
      · intro h
        exact ⟨0, h⟩
      · rintro ⟨i, h⟩
        simpa using h
  | cons c cs ih =>
      unfold scanFirst
      cases hf : f (c :: cs) with
      | some r =>
          simp only [Option.isSome_some, true_iff]
          exact ⟨0, by simp [hf]⟩
      | none =>
          constructor
          · intro h
            rcases ih.mp h with ⟨i, hi⟩
            exact ⟨i + 1, by simpa using hi⟩
          · rintro ⟨i, hi⟩
            cases i with
            | zero =>
                rw [List.drop_zero, hf] at hi
                simp at hi
            | succ j =>
                exact ih.mpr ⟨j, by simpa using hi⟩

theorem scanFirst_eq_some (f : Str → Option Str) (s : Str) (r : Str)
    (h : scanFirst f s = some r) : ∃ i, f (s.drop i) = some r := by
  induction s with
  | nil => exact ⟨0, h⟩
  | cons c cs ih =>
      unfold scanFirst at h
      cases hf : f (c :: cs) with
      | some r' =>
          rw [hf] at h
          exact ⟨0, by rw [List.drop_zero, hf]; exact h⟩
      | none =>
          rw [hf] at h
          rcases ih h with ⟨i, hi⟩
          exact ⟨i + 1, by simpa using hi⟩

/-- At any position where `language-type:(\w+)` matches, `language-(\w+)`
also matches and captures the literal `type` (the word run is cut by the
colon of `type:`). -/
theorem tryTagWordAt_type (s : Str)
    (h : (tryTagWordAt "language-type:".toList s).isSome) :
    tryTagWordAt "language-".toList s = some "type".toList := by
  unfold tryTagWordAt at h
  by_cases hp : "language-type:".toList.isPrefixOf s
  · rcases List.isPrefixOf_iff_prefix.mp hp with ⟨t, ht⟩
    rw [← ht]
    rfl
  · rw [if_neg hp] at h
    simp at h

/-! ### Claims about the decoder -/

/-- C7: the class string `language-type:Quoted path:a.py, lines:5` with
`hideCode = true`, `inline = false` and a single plain-text child selects the
FileChip strategy, with decoded zero-indexed range `(4, 4)`, the path `a.py`
as the chip name, and a click emitting the range string `4_4`; when the path
tag is absent the chip name is the empty string. -/
theorem claim_C7 (propsJSON : Str) (s : Str) :
    render "language-type:Quoted path:a.py, lines:5".toList [Child.str s]
        false true propsJSON =
      Strategy.fileChip "a.py".toList (some 4, some 4) "4_4".toList ∧
    render "language-type:Quoted lines:5".toList [Child.str s]
        false true propsJSON =
      Strategy.fileChip [] (some 4, some 4) "4_4".toList :=
  ⟨rfl, rfl⟩

/-- C8: the class string `lang:rust path:src/main.rs, lines:10-20` decodes to
language `rust`, path `src/main.rs` and zero-indexed inclusive range
`(9, 19)`; in general a single-bound lines value decodes with the end bound
defaulting to the start. -/
theorem claim_C8 :
    (matchLang "lang:rust path:src/main.rs, lines:10-20".toList =
        some "rust".toList ∧
      matchPath "lang:rust path:src/main.rs, lines:10-20".toList =
        some "src/main.rs".toList ∧
      linesToUse "lang:rust path:src/main.rs, lines:10-20".toList =
        (some 9, some 19)) ∧
    (∀ (className : Str) (n : Int), linesList className = [some n] →
        linesToUse className = (some (n - 1), some (n - 1))) := by
  refine ⟨⟨rfl, rfl, rfl⟩, ?_⟩
  intro className n h
  unfold linesToUse
  rw [h]
  rfl

theorem claim_C8_witness :
    linesToUse "lines:7".toList = (some 6, some 6) :=
  claim_C8.2 "lines:7".toList 7 rfl

/-- C9: with no language or type tag in the class string, a single plain-text
child that is a hex color literal selects the color-swatch branch (forwarding
the pass-through attribute blob and class), and a single plain-text child
that is not a valid hex literal falls through to plain code. -/
theorem claim_C9 (className : Str) (inline hideCode : Bool) (propsJSON : Str)
    (htype : matchType className = none)
    (hlang : matchLang className = none) :
    render className [Child.str "#FFF".toList] inline hideCode propsJSON =
      Strategy.colorSwatch "#FFF".toList propsJSON className ∧
    render className [Child.str "#GGGGGG".toList] inline hideCode propsJSON =
      Strategy.plainCode propsJSON className := by
  constructor <;>
    simp [render, htype, hlang, colorCond, isHexColor, List.isEmpty]

theorem claim_C9_witness :
    render [] [Child.str "#FFF".toList] false false "{}".toList =
        Strategy.colorSwatch "#FFF".toList "{}".toList [] ∧
      render [] [Child.str "#GGGGGG".toList] false false "{}".toList =
        Strategy.plainCode "{}".toList [] :=
  claim_C9 [] false false "{}".toList rfl rfl

/-- C10 as stated is false: `/language-(\w+)/` takes the leftmost match, so
an earlier `language-<word>` token beats the `type` capture even when a
`language-type:` tag is present and no `lang:` token occurs. -/
theorem claim_C10_counterexample :
    matchType "language-js language-type:Quoted".toList =
        some "Quoted".toList ∧
      matchLangFst "language-js language-type:Quoted".toList = none ∧
      matchLang "language-js language-type:Quoted".toList =
        some "js".toList ∧
      matchLang "language-js language-type:Quoted".toList ≠
        some "type".toList :=
  ⟨rfl, rfl, rfl, by decide⟩

/-- C10 amended: when the class string has a `language-type:<word>` tag, no
`lang:<word>` token, and every position where `language-(\w+)` matches
captures `type` (in particular when the type tag is the only `language-`
token), the decoded language is the literal string `type`. -/
theorem claim_C10_amended (className : Str)
    (hfst : matchLangFst className = none)
    (htype : (matchType className).isSome)
    (honly : ∀ i, i < className.length →
        (tryTagWordAt "language-".toList (className.drop i)).isSome →
        tryTagWordAt "language-".toList (className.drop i) =
          some "type".toList) :
    matchLang className = some "type".toList := by
  unfold matchLang
  rw [hfst]
  unfold matchType at htype
  rcases (scanFirst_isSome_iff _ _).mp htype with ⟨i, hi⟩
  have hlangI := tryTagWordAt_type _ hi
  have hsome : (matchLangSnd className).isSome := by
    unfold matchLangSnd
    exact (scanFirst_isSome_iff _ _).mpr ⟨i, by rw [hlangI]; rfl⟩
  rcases Option.isSome_iff_exists.mp hsome with ⟨r, hr⟩
  have hr' : scanFirst (tryTagWordAt "language-".toList) className = some r :=
    hr
  rcases scanFirst_eq_some _ _ _ hr' with ⟨j, hj⟩
  have hjlt : j < className.length := by
    by_contra hge
    push_neg at hge
    rw [List.drop_eq_nil_of_le hge] at hj
    have hnil : tryTagWordAt "language-".toList ([] : Str) = none := rfl
    rw [hnil] at hj
    exact Option.noConfusion hj
  have hre := honly j hjlt (by rw [hj]; rfl)
  rw [hj] at hre
  rw [hr]
  exact hre

theorem claim_C10_witness :
    matchLang "language-type:Quoted".toList = some "type".toList :=
  claim_C10_amended "language-type:Quoted".toList (by decide) (by decide)
    (by decide)

/-- C2 as stated is false: with a lines tag whose value is non-numeric the
decoded `linesToUse` pair is still produced and both components are `NaN`,
so the decoded output does contain `NaN` rather than an absent range. -/
theorem claim_C2_counterexample :
    matchLines "language-type:Quoted lines:abc".toList = some "abc".toList ∧
      linesToUse "language-type:Quoted lines:abc".toList = (jsNaN, jsNaN) :=
  ⟨rfl, rfl⟩

/-- C2 amended: the `linesToUse` pair is always present; its first component
is a number exactly when the first lines segment parses to a number, and a
missing lines tag yields the `NaN` pair.  Non-numeric or missing values thus
yield `NaN`-bearing output, never an absent range. -/
theorem claim_C2_amended (className : Str) :
    ((linesToUse className).1 ≠ jsNaN ↔
      ∃ n : Int, (linesList className)[0]? = some (some n)) ∧
    (matchLines className = none → linesToUse className = (jsNaN, jsNaN)) := by
  constructor
  · unfold linesToUse
    cases h : (linesList className)[0]? with
    | none => simp [h, jsSub1, jsNaN]
    | some v =>
        cases v with
        | none => simp [h, jsSub1, jsNaN]
        | some n => simp [h, jsSub1, jsNaN]
  · intro h
    have hl : linesList className = [] := by
      unfold linesList
      rw [h]
    unfold linesToUse
    rw [hl]
    rfl

theorem claim_C2_witness :
    linesToUse "xyz".toList = (jsNaN, jsNaN) :=
  (claim_C2_amended "xyz".toList).2 rfl

/-- C3 as stated is false: on a numeric-parse failure the FileChip click is
not suppressed — it still emits a navigation event, whose range string is
`NaN_NaN`. -/
theorem claim_C3_counterexample :
    render "language-type:Quoted lines:abc".toList [Child.str "x".toList]
        false true "{}".toList =
      Strategy.fileChip [] (jsNaN, jsNaN) "NaN_NaN".toList :=
  rfl

/-- C3 amended: the decoder is total (numeric parse failures raise nothing),
but navigation is not suppressed: whenever the first lines bound is `NaN` or
missing the chip click emits a range string beginning with `NaN_`, and with
no lines tag at all it emits exactly `NaN_NaN`. -/
theorem claim_C3_amended (className : Str) :
    ((linesList className)[0]? = some jsNaN ∨
        (linesList className)[0]? = none →
      ∃ s, chipClickEmit className = "NaN_".toList ++ s) ∧
    (matchLines className = none →
      chipClickEmit className = "NaN_NaN".toList) := by
  constructor
  · intro h
    refine ⟨jsNumToString (jsSub1 (jsCoalesce (linesList className)[1]?
      (linesList className)[0]?)), ?_⟩
    unfold chipClickEmit
    rcases h with h | h <;> rw [h] <;> rfl
  · intro h
    have hl : linesList className = [] := by
      unfold linesList
      rw [h]
    unfold chipClickEmit
    rw [hl]
    rfl

theorem claim_C3_witness :
    chipClickEmit "xyz".toList = "NaN_NaN".toList :=
  (claim_C3_amended "xyz".toList).2 rfl

/-! ### The comma-terminated path grammar (C6) -/

theorem dropToComma_eq_some {l r : Str} (h : dropToComma l = some r) :
    ∃ u, l = u ++ ',' :: r ∧ ',' ∉ u := by
  induction l with
  | nil => exact Option.noConfusion h
  | cons c cs ih =>
      unfold dropToComma at h
      by_cases hc : c = ','
      · rw [if_pos hc] at h
        rcases Option.some.inj h with rfl
        exact ⟨[], by rw [hc]; rfl, by simp⟩
      · rw [if_neg hc] at h
        rcases ih h with ⟨u, hu, hnc⟩
        exact ⟨c :: u, by rw [hu]; rfl, by simp [hnc, Ne.symm, hc]⟩

theorem dropToComma_isSome {l : Str} (h : ',' ∈ l) :
    (dropToComma l).isSome := by
  induction l with
  | nil => simp at h
  | cons c cs ih =>
      unfold dropToComma
      by_cases hc : c = ','
      · rw [if_pos hc]
        rfl
      · rw [if_neg hc]
        rcases List.mem_cons.mp h with h' | h'
        · exact absurd h'.symm hc
        · exact ih h'

theorem takeWhile_all_append {f : Char → Bool} {p l : Str}
    (hp : p.all f = true) :
    (p ++ l).takeWhile f = p ++ l.takeWhile f := by
  induction p with
  | nil => rfl
  | cons c cs ih =>
      have hp' := hp
      simp only [List.all_cons, Bool.and_eq_true] at hp'
      rcases hp' with ⟨hc, hcs⟩
      simp only [List.cons_append, List.takeWhile_cons_of_pos hc]
      rw [ih hcs]

theorem greedyDotPlusComma_eq_some {rest p : Str}
    (h : greedyDotPlusComma rest = some p) :
    ∃ b, rest = p ++ ',' :: b ∧ p ≠ [] ∧ p.all jsDot = true := by
  unfold greedyDotPlusComma at h
  cases hd : dropToComma (rest.takeWhile jsDot).reverse with
  | none => rw [hd] at h; exact Option.noConfusion h
  | some revCap =>
      rw [hd] at h
      have h' : (if revCap = [] then (none : Option Str)
          else some revCap.reverse) = some p := h
      by_cases hnil : revCap = []
      · rw [if_pos hnil] at h'
        exact Option.noConfusion h'
      · rw [if_neg hnil] at h'
        rcases Option.some.inj h' with rfl
        rcases dropToComma_eq_some hd with ⟨u, hu, _⟩
        have hline : rest.takeWhile jsDot = revCap.reverse ++ ',' :: u.reverse := by
          have := congrArg List.reverse hu
          simpa [List.reverse_append] using this
        have hall : (rest.takeWhile jsDot).all jsDot = true :=
          List.all_eq_true.mpr fun x hx => List.mem_takeWhile_imp hx
        rw [hline] at hall
        have hallp : revCap.reverse.all jsDot = true := by
          simp only [List.all_append, List.all_cons, Bool.and_eq_true] at hall
          exact hall.1
        refine ⟨u.reverse ++ rest.dropWhile jsDot, ?_, by simpa using hnil,
          hallp⟩
        calc rest = rest.takeWhile jsDot ++ rest.dropWhile jsDot :=
              (List.takeWhile_append_dropWhile jsDot rest).symm
          _ = revCap.reverse ++ ',' :: (u.reverse ++ rest.dropWhile jsDot) :=
              by rw [hline]; simp

theorem greedyDotPlusComma_isSome {p b : Str} (hne : p ≠ [])
    (hall : p.all jsDot = true) :
    (greedyDotPlusComma (p ++ ',' :: b)).isSome := by
  unfold greedyDotPlusComma
  have hline : (p ++ ',' :: b).takeWhile jsDot =
      p ++ ',' :: b.takeWhile jsDot := by
    rw [takeWhile_all_append hall]
    rfl
  rw [hline]
  have hmem : ',' ∈ (p ++ ',' :: b.takeWhile jsDot).reverse := by
    simp
  cases hd : dropToComma (p ++ ',' :: b.takeWhile jsDot).reverse with
  | none =>
      have := dropToComma_isSome hmem
      rw [hd] at this
      exact absurd this (by simp)
  | some revCap =>
      rcases dropToComma_eq_some hd with ⟨u, hu, hnc⟩
      have hcapne : revCap ≠ [] := by
        intro hcap
        subst hcap
        have hrev : p ++ ',' :: b.takeWhile jsDot = ',' :: u.reverse := by
          have hr := congrArg List.reverse hu
          simpa [List.reverse_append] using hr
        rcases p with _ | ⟨c, p'⟩
        · exact hne rfl
        · rw [List.cons_append] at hrev
          rcases List.cons.inj hrev with ⟨hc, htail⟩
          apply hnc
          rw [← List.mem_reverse, ← htail]
          exact List.mem_append.mpr (Or.inr (List.mem_cons_self _ _))
      show (if revCap = [] then none
        else some revCap.reverse : Option Str).isSome = true
      rw [if_neg hcapne]
      rfl

theorem tryPathAt_eq_some {s p : Str} (h : tryPathAt s = some p) :
    ∃ b, s = "path:".toList ++ p ++ ',' :: b ∧ p ≠ [] ∧ p.all jsDot = true := by
  unfold tryPathAt at h
  by_cases hp : "path:".toList.isPrefixOf s
  · rw [if_pos hp] at h
    rcases List.isPrefixOf_iff_prefix.mp hp with ⟨t, ht⟩
    have hdrop : s.drop "path:".length = t := by
      rw [← ht]
      exact List.drop_left' rfl
    rw [hdrop] at h
    rcases greedyDotPlusComma_eq_some h with ⟨b, hb, hne, hall⟩
    exact ⟨b, by rw [← ht, hb]; simp, hne, hall⟩
  · rw [if_neg hp] at h
    exact Option.noConfusion h

theorem tryPathAt_isSome {p b : Str} (hne : p ≠ [])
    (hall : p.all jsDot = true) :
    (tryPathAt ("path:".toList ++ p ++ ',' :: b)).isSome := by
  unfold tryPathAt
  have hp : "path:".toList.isPrefixOf ("path:".toList ++ (p ++ ',' :: b)) :=
    List.isPrefixOf_iff_prefix.mpr (List.prefix_append _ _)
  rw [List.append_assoc, if_pos hp]
  have hdrop : ("path:".toList ++ (p ++ ',' :: b)).drop "path:".length =
      p ++ ',' :: b := List.drop_left' rfl
  rw [hdrop]
  exact greedyDotPlusComma_isSome hne hall

/-- C6: the path tag matches exactly when some `path:` token is followed, on
the same line, by a non-empty value terminated by a literal comma; and
whatever the decoder returns is the text standing between a `path:` token
and such a terminating comma.  In particular a `path:` token with no
trailing comma after it yields an absent path. -/
theorem claim_C6 (className : Str) :
    ((matchPath className).isSome ↔
      ∃ a p b : Str, className = a ++ "path:".toList ++ p ++ ',' :: b ∧
        p ≠ [] ∧ p.all jsDot = true) ∧
    (∀ p, matchPath className = some p →
      ∃ a b : Str, className = a ++ "path:".toList ++ p ++ ',' :: b ∧
        p ≠ [] ∧ p.all jsDot = true) := by
  have hval : ∀ p, matchPath className = some p →
      ∃ a b : Str, className = a ++ "path:".toList ++ p ++ ',' :: b ∧
        p ≠ [] ∧ p.all jsDot = true := by
    intro p hp
    rcases scanFirst_eq_some _ _ _ hp with ⟨i, hi⟩
    rcases tryPathAt_eq_some hi with ⟨b, hb, hne, hall⟩
    refine ⟨className.take i, b, ?_, hne, hall⟩
    calc className = className.take i ++ className.drop i :=
          (List.take_append_drop i className).symm
      _ = className.take i ++ "path:".toList ++ p ++ ',' :: b := by
          rw [hb]; simp
  refine ⟨⟨?_, ?_⟩, hval⟩
  · intro h
    rcases Option.isSome_iff_exists.mp h with ⟨p, hp⟩
    rcases hval p hp with ⟨a, b, hab, hne, hall⟩
    exact ⟨a, p, b, hab, hne, hall⟩
  · rintro ⟨a, p, b, hab, hne, hall⟩
    unfold matchPath
    apply (scanFirst_isSome_iff _ _).mpr
    refine ⟨a.length, ?_⟩
    have hdrop : className.drop a.length = "path:".toList ++ p ++ ',' :: b := by
      rw [hab]
      simp only [List.append_assoc]
      exact List.drop_left' rfl
    rw [hdrop]
    exact tryPathAt_isSome hne hall

theorem claim_C6_witness :
    (matchPath "path:a.py, lines:5".toList).isSome ∧
      ∃ a b : Str, "path:a.py, x".toList =
          a ++ "path:".toList ++ "a.py".toList ++ ',' :: b ∧
        "a.py".toList ≠ [] ∧ ("a.py".toList).all jsDot = true :=
  ⟨(claim_C6 "path:a.py, lines:5".toList).1.mpr
      ⟨[], "a.py".toList, " lines:5".toList, by decide, by decide, by decide⟩,
    (claim_C6 "path:a.py, x".toList).2 "a.py".toList (by decide)⟩

end Bloop
